import Mathlib

/-!
Verification development for the two notebook pipelines of this repository
(EEG game-rating classification and smart-fabric touch/user classification).
Feature values and accuracy scores are modelled as rationals, labels as
integers (the categorical targets are label-encoded to integers in the
source), matrices as lists of rows.
-/

/-- The error taxonomy of the pipeline specification. -/
inductive MLError where
  | dataFormatError
  | imputationError
  | insufficientFeaturesError
  | stratificationError
  | invariantViolation
deriving DecidableEq, Repr

/-- Classification accuracy as computed by `accuracy_score(y_test, y_pred)`
in both notebooks: the fraction of positions where the prediction equals the
true label (the two vectors have equal length in every call site; the
embedding pairs them positionally). -/
def accuracy_score (yTrue yPred : List ℤ) : ℚ :=
  ((yTrue.zip yPred).countP (fun p => p.1 == p.2) : ℚ) / ((yTrue.zip yPred).length : ℚ)

/-- The Scorer of both notebooks: `final_score = acc_a * acc_b`
(04.ipynb cell 11; smart-fabric notebook, final-score cell). It multiplies
its two inputs unconditionally and performs no validation. -/
def final_score (accA accB : ℚ) : ℚ := accA * accB

theorem accuracy_score_nonneg (yTrue yPred : List ℤ) : 0 ≤ accuracy_score yTrue yPred := by
  unfold accuracy_score
  positivity

theorem accuracy_score_le_one (yTrue yPred : List ℤ) : accuracy_score yTrue yPred ≤ 1 := by
  unfold accuracy_score
  rcases Nat.eq_zero_or_pos (yTrue.zip yPred).length with h | h
  · simp [h]
  · rw [div_le_one (by exact_mod_cast h)]
    exact_mod_cast List.countP_le_length _

/-- C1: For every run of either pipeline, the composite score returned by the
Scorer equals the product of the two per-target accuracy scores (not a sum or
average); each accuracy lies in [0, 1], and therefore the composite score
also lies in [0, 1]. -/
theorem final_score_is_product_and_in_unit_interval (t₁ p₁ t₂ p₂ : List ℤ) :
    final_score (accuracy_score t₁ p₁) (accuracy_score t₂ p₂)
        = accuracy_score t₁ p₁ * accuracy_score t₂ p₂ ∧
    0 ≤ accuracy_score t₁ p₁ ∧ accuracy_score t₁ p₁ ≤ 1 ∧
    0 ≤ accuracy_score t₂ p₂ ∧ accuracy_score t₂ p₂ ≤ 1 ∧
    0 ≤ final_score (accuracy_score t₁ p₁) (accuracy_score t₂ p₂) ∧
    final_score (accuracy_score t₁ p₁) (accuracy_score t₂ p₂) ≤ 1 := by
  refine ⟨rfl, accuracy_score_nonneg _ _, accuracy_score_le_one _ _,
    accuracy_score_nonneg _ _, accuracy_score_le_one _ _, ?_, ?_⟩
  · exact mul_nonneg (accuracy_score_nonneg _ _) (accuracy_score_nonneg _ _)
  · exact mul_le_one₀ (accuracy_score_le_one _ _) (accuracy_score_nonneg _ _)
      (accuracy_score_le_one _ _)

/-- C9 counterexample: on the out-of-range input 2 (outside [0, 1]) the
Scorer of the source signals nothing and returns the product of its inputs,
contradicting the claim that it signals an InvariantViolation rather than
returning a product. -/
theorem final_score_no_range_check :
    final_score 2 (1 / 2) = 2 * (1 / 2) ∧ ¬((2 : ℚ) ≤ 1) := by
  constructor
  · rfl
  · norm_num

/-- C9 amended: the Scorer is a total function that returns the product of
its two inputs unconditionally; it performs no range validation and has no
failure mode at all, so out-of-range inputs yield a product rather than an
InvariantViolation. -/
theorem final_score_total_product (accA accB : ℚ) : final_score accA accB = accA * accB := rfl

/-- Number of feature columns of a row-major matrix (length of its first row;
all matrices in the pipelines are rectangular). -/
def numCols (X : List (List ℚ)) : ℕ := (X.headD []).length

/-- Mean of a list of rationals (0 for the empty list). -/
def listMean (l : List ℚ) : ℚ := l.sum / (l.length : ℚ)

/-- Modelled from the spec: the sample variance a feature column is judged by
in the variance filter (the `VarianceThreshold` library routine, whose code is
not part of this repository) — the mean squared deviation from the column
mean. -/
def listVariance (l : List ℚ) : ℚ := listMean (l.map (fun x => (x - listMean l) ^ 2))

/-- Column j of a row-major matrix. -/
def column (X : List (List ℚ)) (j : ℕ) : List ℚ := X.map (fun r => r.getD j 0)

/-- Sample variance of column j of a matrix. -/
def colVariance (X : List (List ℚ)) (j : ℕ) : ℚ := listVariance (column X j)

/-- Modelled from the spec: the column indices the variance filter with
threshold t keeps — exactly those whose sample variance is not below t. -/
def keptCols (t : ℚ) (X : List (List ℚ)) : List ℕ :=
  (List.range (numCols X)).filter (fun j => t ≤ colVariance X j)

/-- Modelled from the spec: `VarianceThreshold(threshold=t).fit_transform` of
the smart-fabric notebook — drop every feature whose sample variance across
all rows is below t, keeping the surviving columns in their original order. -/
def variance_filter (t : ℚ) (X : List (List ℚ)) : List (List ℚ) :=
  X.map (fun r => (keptCols t X).map (fun j => r.getD j 0))

/-- Modelled from the spec: the median importance across all features, as
`np.median` computes it for `threshold="median"` — the middle element of the
scores in sorted order, or the average of the two middle elements when the
count is even. -/
def npMedian (l : List ℚ) : ℚ :=
  let s := l.insertionSort (· ≤ ·)
  if s.length % 2 = 1 then s.getD (s.length / 2) 0
  else (s.getD (s.length / 2 - 1) 0 + s.getD (s.length / 2) 0) / 2

/-- Modelled from the spec: the support mask of
`SelectFromModel(threshold="median")` — one Boolean per feature, true when
that feature's importance from the fitted ensemble is at or above the median
importance. -/
def supportMask (imp : List ℚ) : List Bool := imp.map (fun v => npMedian imp ≤ v)

/-- Restriction of one row to the columns whose mask entry is true. -/
def maskFilter (mask : List Bool) (row : List ℚ) : List ℚ :=
  ((mask.zip row).filter (fun p => p.1)).map (fun p => p.2)

/-- Modelled from the spec: `SelectFromModel(..., threshold="median").transform`
— keep, in every row, exactly the features whose importance is at or above
the median importance; `imp` is the per-feature importance vector of the
fitted ensemble. -/
def model_selector_transform (imp : List ℚ) (X : List (List ℚ)) : List (List ℚ) :=
  X.map (maskFilter (supportMask imp))

/-- The feature indices the importance filter keeps. -/
def keptIdx (imp : List ℚ) : List ℕ :=
  (List.range imp.length).filter (fun j => npMedian imp ≤ imp.getD j 0)

/-- The dataflow of one pipeline run observed by the claims about filter
fitting: every (matrix, labels) pair the importance selector was fitted
against, and the feature matrix handed to the train/test split of each of the
two targets. -/
structure SelectionTrace where
  fitCalls : List (List (List ℚ) × List ℤ)
  splitMatrixTarget1 : List (List ℚ)
  splitMatrixTarget2 : List (List ℚ)

/-- A call to the abstract ensemble-fitting capability; every call appends
its arguments to the log. `fit` returns the fitted model's per-feature
importance vector. -/
def loggedFit (fit : List (List ℚ) → List ℤ → List ℚ)
    (log : List (List (List ℚ) × List ℤ)) (X : List (List ℚ)) (y : List ℤ) :
    List ℚ × List (List (List ℚ) × List ℤ) :=
  (fit X y, log ++ [(X, y)])

/-- Cells 7 and 9 of 04.ipynb: fit the selector ensemble on
(X_imputed, y_pegi), reduce X_imputed with the median-threshold importance
filter, and hand the one reduced matrix X_selected to the train/test split of
both targets (the ESRB labels are never an argument of a fit of the
selector). -/
def eeg_selection (fit : List (List ℚ) → List ℤ → List ℚ)
    (xImputed : List (List ℚ)) (yPegi _yEsrbEncoded : List ℤ) : SelectionTrace :=
  let fitted := loggedFit fit [] xImputed yPegi
  let xSelected := model_selector_transform fitted.1 xImputed
  { fitCalls := fitted.2
  , splitMatrixTarget1 := xSelected
  , splitMatrixTarget2 := xSelected }

/-- The preprocessing cell of the smart-fabric notebook: variance-filter X at
threshold 0.01, fit the selector ensemble once on (X_filtered, target_user),
reduce X_filtered with the median-threshold importance filter, and hand the
one reduced matrix X_selected to the train/test split of both targets. -/
def fabric_selection (fit : List (List ℚ) → List ℤ → List ℚ)
    (x : List (List ℚ)) (targetUser _targetTouch : List ℤ) : SelectionTrace :=
  let xFiltered := variance_filter (1 / 100) x
  let fitted := loggedFit fit [] xFiltered targetUser
  let xSelected := model_selector_transform fitted.1 xFiltered
  { fitCalls := fitted.2
  , splitMatrixTarget1 := xSelected
  , splitMatrixTarget2 := xSelected }

/-- C2: in each pipeline the importance filter is fitted exactly once,
against the primary target's labels (PEGI in the EEG pipeline, user_id in the
smart-fabric pipeline), and the one reduced matrix produced by that single
fit is the split input for both targets; no fit against the other target's
labels occurs. -/
theorem selector_fit_once_primary (fit : List (List ℚ) → List ℤ → List ℚ)
    (x : List (List ℚ)) (y₁ y₂ : List ℤ) :
    ((eeg_selection fit x y₁ y₂).fitCalls = [(x, y₁)] ∧
      (eeg_selection fit x y₁ y₂).splitMatrixTarget1
        = model_selector_transform (fit x y₁) x ∧
      (eeg_selection fit x y₁ y₂).splitMatrixTarget2
        = (eeg_selection fit x y₁ y₂).splitMatrixTarget1) ∧
    ((fabric_selection fit x y₁ y₂).fitCalls = [(variance_filter (1 / 100) x, y₁)] ∧
      (fabric_selection fit x y₁ y₂).splitMatrixTarget1
        = model_selector_transform (fit (variance_filter (1 / 100) x) y₁)
            (variance_filter (1 / 100) x) ∧
      (fabric_selection fit x y₁ y₂).splitMatrixTarget2
        = (fabric_selection fit x y₁ y₂).splitMatrixTarget1) :=
  ⟨⟨rfl, rfl, rfl⟩, ⟨rfl, rfl, rfl⟩⟩

/-- C5: the smart-fabric variance filter keeps exactly the features whose
sample variance is at or above the fixed threshold 0.01 — in particular a
feature with variance exactly 0.01 is retained and one with smaller variance
is dropped — it preserves the row count and the correspondence of output
rows to input rows, and its output is deterministic in the input matrix. -/
theorem variance_filter_exact_threshold (X : List (List ℚ)) :
    (∀ j, j < numCols X → (j ∈ keptCols (1 / 100) X ↔ (1 / 100 : ℚ) ≤ colVariance X j)) ∧
    (∀ j, j < numCols X → colVariance X j = 1 / 100 → j ∈ keptCols (1 / 100) X) ∧
    (∀ j, j < numCols X → colVariance X j < 1 / 100 → j ∉ keptCols (1 / 100) X) ∧
    (variance_filter (1 / 100) X).length = X.length ∧
    (∀ i, i < X.length → (variance_filter (1 / 100) X).getD i []
        = (keptCols (1 / 100) X).map (fun j => (X.getD i []).getD j 0)) ∧
    (∀ X', X = X' → variance_filter (1 / 100) X = variance_filter (1 / 100) X') := by
  refine ⟨?_, ?_, ?_, ?_, ?_, ?_⟩
  · intro j hj
    simp [keptCols, List.mem_filter, List.mem_range, hj]
  · intro j hj hv
    simp [keptCols, List.mem_filter, List.mem_range, hj, hv]
  · intro j hj hv
    simp only [keptCols, List.mem_filter, List.mem_range, decide_eq_true_eq]
    rintro ⟨-, hle⟩
    exact absurd hv (not_lt.mpr hle)
  · simp [variance_filter]
  · intro i hi
    have hlen : i < (variance_filter (1 / 100) X).length := by
      simpa [variance_filter] using hi
    rw [List.getD_eq_getElem _ _ hlen, List.getD_eq_getElem _ _ hi]
    simp [variance_filter]
  · rintro X' rfl
    rfl

/-- Witness for C5 at a concrete matrix: column 0 of [[0, 0], [1/5, 0]] has
sample variance exactly 1/100 and is retained; column 1 is constant, has
variance 0 < 1/100, and is dropped. -/
theorem variance_filter_exact_threshold_witness :
    0 ∈ keptCols (1 / 100) [[0, 0], [1 / 5, 0]] ∧
    1 ∉ keptCols (1 / 100) [[0, 0], [1 / 5, 0]] :=
  ⟨(variance_filter_exact_threshold [[0, 0], [1 / 5, 0]]).2.1 0
      (by norm_num [numCols])
      (by norm_num [colVariance, column, listVariance, listMean]),
    (variance_filter_exact_threshold [[0, 0], [1 / 5, 0]]).2.2.1 1
      (by norm_num [numCols])
      (by norm_num [colVariance, column, listVariance, listMean])⟩

theorem range_map_getD (l : List ℚ) :
    (List.range l.length).map (fun j => l.getD j 0) = l := by
  induction l with
  | nil => rfl
  | cons a tl ih =>
      rw [List.length_cons, List.range_succ_eq_map, List.map_cons, List.map_map]
      simp only [List.getD_cons_zero, Function.comp_def, List.getD_cons_succ]
      rw [ih]

theorem getD_map_of_lt (g : ℕ → ℚ) {K : List ℕ} {j : ℕ} (h : j < K.length) :
    (K.map g).getD j 0 = g (K.get ⟨j, h⟩) := by
  rw [List.getD_eq_getElem _ _ (by simpa using h)]
  simp

/-- The columns of a variance-filtered matrix are columns of the original
matrix: column j' of the output is column (keptCols t X).get j' of X. -/
theorem variance_filter_column (t : ℚ) (X : List (List ℚ)) (j' : ℕ)
    (h : j' < (keptCols t X).length) :
    column (variance_filter t X) j' = column X ((keptCols t X).get ⟨j', h⟩) := by
  unfold variance_filter column
  rw [List.map_map]
  refine List.map_congr_left fun r _ => ?_
  simp only [Function.comp_def]
  exact getD_map_of_lt _ h

theorem numCols_variance_filter (t : ℚ) (r₀ : List ℚ) (tl : List (List ℚ)) :
    numCols (variance_filter t (r₀ :: tl)) = (keptCols t (r₀ :: tl)).length := by
  simp [variance_filter, numCols]

/-- After one pass of the variance filter, every surviving column still has
variance at or above the threshold, so a second pass keeps every column. -/
theorem keptCols_variance_filter (t : ℚ) (r₀ : List ℚ) (tl : List (List ℚ)) :
    keptCols t (variance_filter t (r₀ :: tl))
      = List.range (keptCols t (r₀ :: tl)).length := by
  unfold keptCols
  rw [numCols_variance_filter]
  refine List.filter_eq_self.mpr fun j' hj' => ?_
  have h : j' < (keptCols t (r₀ :: tl)).length := List.mem_range.mp hj'
  have hcv : colVariance (variance_filter t (r₀ :: tl)) j'
      = colVariance (r₀ :: tl) ((keptCols t (r₀ :: tl)).get ⟨j', h⟩) := by
    unfold colVariance
    rw [variance_filter_column t _ j' h]
  have hmem : (keptCols t (r₀ :: tl)).get ⟨j', h⟩ ∈ keptCols t (r₀ :: tl) :=
    List.get_mem _ _ _
  have hle := (List.mem_filter.mp hmem).2
  simp only [decide_eq_true_eq] at hle ⊢
  rw [hcv]
  exact hle

/-- C6: the variance filter at threshold 0.01 is idempotent — applying it to
its own output removes no further columns, the twice-filtered matrix equals
the once-filtered one. -/
theorem variance_filter_idempotent (X : List (List ℚ)) :
    variance_filter (1 / 100) (variance_filter (1 / 100) X) = variance_filter (1 / 100) X := by
  rcases X with _ | ⟨r₀, tl⟩
  · rfl
  · rw [show variance_filter (1 / 100) (variance_filter (1 / 100) (r₀ :: tl))
        = (variance_filter (1 / 100) (r₀ :: tl)).map
            (fun r => (keptCols (1 / 100) (variance_filter (1 / 100) (r₀ :: tl))).map
              (fun j => r.getD j 0)) from rfl]
    rw [keptCols_variance_filter]
    have hrow : ∀ r' ∈ variance_filter (1 / 100) (r₀ :: tl),
        (List.range (keptCols (1 / 100) (r₀ :: tl)).length).map (fun j => r'.getD j 0)
          = id r' := by
      intro r' hr'
      obtain ⟨r, -, rfl⟩ := List.mem_map.mp hr'
      have hlen : ((keptCols (1 / 100) (r₀ :: tl)).map (fun j => r.getD j 0)).length
          = (keptCols (1 / 100) (r₀ :: tl)).length := List.length_map _ _
      rw [← hlen]
      exact range_map_getD _
    rw [List.map_congr_left hrow, List.map_id]

theorem getD_map_bool (l : List ℚ) (p : ℚ → Bool) {j : ℕ} (hj : j < l.length) :
    (l.map p).getD j false = p (l.getD j 0) := by
  rw [List.getD_eq_getElem _ _ (by simpa using hj), List.getD_eq_getElem _ _ hj,
    List.getElem_map]

/-- Filtering a row through a Boolean mask of the same length keeps exactly
the entries at the indices where the mask is true, in order. -/
theorem maskFilter_eq_filter_range (mask : List Bool) (row : List ℚ)
    (h : row.length = mask.length) :
    maskFilter mask row
      = ((List.range mask.length).filter (fun j => mask.getD j false)).map
          (fun j => row.getD j 0) := by
  induction mask generalizing row with
  | nil =>
      rw [List.length_eq_zero.mp h]
      rfl
  | cons b bs ih =>
      rcases row with _ | ⟨x, xs⟩
      · exact absurd h (by simp)
      · have hx : xs.length = bs.length := by simpa using h
        have htail := ih xs hx
        rw [List.length_cons, List.range_succ_eq_map, List.filter_cons]
        simp only [List.getD_cons_zero, List.filter_map, Function.comp_def,
          List.getD_cons_succ]
        cases b
        · simp only [Bool.false_eq_true, if_false, List.map_map, Function.comp_def,
            List.getD_cons_succ]
          rw [show maskFilter (false :: bs) (x :: xs) = maskFilter bs xs from rfl, htail]
        · simp only [if_true, List.map_cons, List.getD_cons_zero, List.map_map,
            Function.comp_def, List.getD_cons_succ]
          rw [show maskFilter (true :: bs) (x :: xs) = x :: maskFilter bs xs from rfl, htail]

/-- The indices where the median support mask is true are exactly the kept
feature indices. -/
theorem filter_supportMask_eq_keptIdx (imp : List ℚ) :
    (List.range imp.length).filter (fun j => (supportMask imp).getD j false)
      = keptIdx imp := by
  unfold keptIdx
  refine List.filter_congr fun j hj => ?_
  have hjlen : j < imp.length := List.mem_range.mp hj
  unfold supportMask
  rw [getD_map_bool imp _ hjlen]

/-- C3: for every importance vector and rectangular input matrix, the
importance filter retains in every row exactly the features whose importance
score is at or above the median of all features' importance scores, in the
original column order; the row count and row order are preserved, every
output row has the kept-index count as its length, and the output column
count is at most the input column count. -/
theorem model_selector_exact_median (imp : List ℚ) (X : List (List ℚ))
    (h : ∀ r ∈ X, r.length = imp.length) :
    (model_selector_transform imp X).length = X.length ∧
    (∀ i, i < X.length →
      (model_selector_transform imp X).getD i []
        = (keptIdx imp).map (fun j => (X.getD i []).getD j 0)) ∧
    (∀ r', r' ∈ model_selector_transform imp X → r'.length = (keptIdx imp).length) ∧
    (keptIdx imp).length ≤ imp.length := by
  have hmask : ∀ r ∈ X, maskFilter (supportMask imp) r
      = (keptIdx imp).map (fun j => r.getD j 0) := by
    intro r hr
    rw [maskFilter_eq_filter_range (supportMask imp) r
      (by rw [h r hr]; exact (List.length_map _ _).symm)]
    rw [show (supportMask imp).length = imp.length from List.length_map _ _,
      filter_supportMask_eq_keptIdx]
  refine ⟨List.length_map _ _, ?_, ?_, ?_⟩
  · intro i hi
    have hi' : i < (model_selector_transform imp X).length := by
      simpa [model_selector_transform] using hi
    rw [List.getD_eq_getElem _ _ hi', List.getD_eq_getElem _ _ hi]
    unfold model_selector_transform
    rw [List.getElem_map]
    exact hmask _ (List.getElem_mem hi)
  · intro r' hr'
    obtain ⟨r, hr, rfl⟩ := List.mem_map.mp hr'
    rw [hmask r hr]
    exact List.length_map _ _
  · exact le_trans (List.length_filter_le _ _) (by rw [List.length_range])

/-- Witness for C3 at a concrete input: importance vector [1/2, 1/4, 3/4]
(median 1/2, kept indices 0 and 2) over a 2 × 3 matrix. -/
theorem model_selector_exact_median_witness :
    (model_selector_transform [1 / 2, 1 / 4, 3 / 4] [[1, 2, 3], [4, 5, 6]]).length
        = [[(1 : ℚ), 2, 3], [4, 5, 6]].length ∧
    (keptIdx [1 / 2, 1 / 4, 3 / 4]).length ≤ ([(1 : ℚ) / 2, 1 / 4, 3 / 4]).length :=
  ⟨(model_selector_exact_median [1 / 2, 1 / 4, 3 / 4] [[1, 2, 3], [4, 5, 6]]
      (by decide)).1,
    (model_selector_exact_median [1 / 2, 1 / 4, 3 / 4] [[1, 2, 3], [4, 5, 6]]
      (by decide)).2.2.2⟩

theorem countP_range_getD {α : Type} (p : α → Bool) (d : α) (l : List α) :
    (List.range l.length).countP (fun j => p (l.getD j d)) = l.countP p := by
  induction l with
  | nil => rfl
  | cons a tl ih =>
      rw [List.length_cons, List.range_succ_eq_map, List.countP_cons, List.countP_map,
        List.countP_cons]
      simp only [Function.comp_def, List.getD_cons_succ, List.getD_cons_zero]
      rw [ih]

/-- The median of a nonempty list is at most the upper middle element of the
sorted list. -/
theorem npMedian_le_upper_middle (imp : List ℚ) (h : imp ≠ []) :
    npMedian imp
      ≤ (imp.insertionSort (· ≤ ·)).getD ((imp.insertionSort (· ≤ ·)).length / 2) 0 := by
  have hs : List.Sorted (· ≤ ·) (imp.insertionSort (· ≤ ·)) :=
    List.sorted_insertionSort (· ≤ ·) imp
  have hlen : (imp.insertionSort (· ≤ ·)).length = imp.length :=
    List.length_insertionSort (· ≤ ·) imp
  have hn : 1 ≤ (imp.insertionSort (· ≤ ·)).length := by
    rw [hlen]
    exact Nat.one_le_iff_ne_zero.mpr (fun h0 => h (List.length_eq_zero.mp h0))
  unfold npMedian
  set s := imp.insertionSort (· ≤ ·) with hsdef
  by_cases hodd : s.length % 2 = 1
  · rw [if_pos hodd]
  · rw [if_neg hodd]
    have h2 : 2 ≤ s.length := by omega
    have hlt : s.length / 2 < s.length := by omega
    have hlt' : s.length / 2 - 1 < s.length := by omega
    have hmono : s.getD (s.length / 2 - 1) 0 ≤ s.getD (s.length / 2) 0 := by
      rw [List.getD_eq_getElem _ _ hlt', List.getD_eq_getElem _ _ hlt]
      have := hs.rel_get_of_le (a := ⟨s.length / 2 - 1, hlt'⟩) (b := ⟨s.length / 2, hlt⟩)
        (Fin.mk_le_mk.mpr (by omega))
      simpa using this
    linarith

/-- Every element of the upper half of the sorted importance list is at or
above the median. -/
theorem npMedian_le_of_mem_drop (imp : List ℚ) (h : imp ≠ []) (x : ℚ)
    (hx : x ∈ (imp.insertionSort (· ≤ ·)).drop ((imp.insertionSort (· ≤ ·)).length / 2)) :
    npMedian imp ≤ x := by
  have hs : List.Sorted (· ≤ ·) (imp.insertionSort (· ≤ ·)) :=
    List.sorted_insertionSort (· ≤ ·) imp
  set s := imp.insertionSort (· ≤ ·) with hsdef
  obtain ⟨i, hilt, rfl⟩ := List.mem_iff_getElem.mp hx
  rw [List.getElem_drop]
  have hhalf : s.length / 2 < s.length := by
    have : i < s.length - s.length / 2 := by simpa using hilt
    omega
  have hsum : s.length / 2 + i < s.length := by
    have : i < s.length - s.length / 2 := by simpa using hilt
    omega
  refine le_trans (npMedian_le_upper_middle imp h) ?_
  rw [List.getD_eq_getElem _ _ hhalf]
  have := hs.rel_get_of_le (a := ⟨s.length / 2, hhalf⟩) (b := ⟨s.length / 2 + i, hsum⟩)
    (Fin.mk_le_mk.mpr (by omega))
  simpa using this

/-- At least half of the importance scores are at or above the median. -/
theorem countP_ge_median_half (imp : List ℚ) (h : imp ≠ []) :
    imp.length - imp.length / 2 ≤ imp.countP (fun v => npMedian imp ≤ v) := by
  have hperm : (imp.insertionSort (· ≤ ·)).Perm imp := List.perm_insertionSort _ imp
  set s := imp.insertionSort (· ≤ ·) with hsdef
  have hlen : s.length = imp.length := hperm.length_eq
  rw [← hperm.countP_eq (fun v => npMedian imp ≤ v)]
  have hsplit := List.take_append_drop (s.length / 2) s
  have hcount : s.countP (fun v => npMedian imp ≤ v)
      = (s.take (s.length / 2)).countP (fun v => npMedian imp ≤ v)
        + (s.drop (s.length / 2)).countP (fun v => npMedian imp ≤ v) := by
    conv_lhs => rw [← hsplit]
    exact List.countP_append _ _ _
  have hdropfull : (s.drop (s.length / 2)).countP (fun v => npMedian imp ≤ v)
      = (s.drop (s.length / 2)).length :=
    List.countP_eq_length.mpr fun x hx => by
      simpa using npMedian_le_of_mem_drop imp h x hx
  have hdroplen : (s.drop (s.length / 2)).length = s.length - s.length / 2 := by
    simp
  omega

/-- C10: for every nonempty importance vector, at least half of the features
— and in particular at least one — have importance at or above the median
importance, so the median-threshold importance filter keeps at least one
column and the zero-column reduction outcome is unreachable in both
pipelines. -/
theorem median_filter_keeps_at_least_half (imp : List ℚ) (h : imp ≠ []) :
    1 ≤ (keptIdx imp).length ∧ imp.length ≤ 2 * (keptIdx imp).length := by
  have hlen : (keptIdx imp).length = imp.countP (fun v => npMedian imp ≤ v) := by
    unfold keptIdx
    rw [← List.countP_eq_length_filter]
    exact countP_range_getD (fun v => npMedian imp ≤ v) 0 imp
  have hge := countP_ge_median_half imp h
  have hpos : 1 ≤ imp.length :=
    Nat.one_le_iff_ne_zero.mpr (fun h0 => h (List.length_eq_zero.mp h0))
  constructor <;> omega

/-- Witness for C10 at the concrete importance vector [1/2, 1/4, 3/4]. -/
theorem median_filter_keeps_at_least_half_witness :
    1 ≤ (keptIdx [1 / 2, 1 / 4, 3 / 4]).length ∧
    ([(1 : ℚ) / 2, 1 / 4, 3 / 4]).length ≤ 2 * (keptIdx [1 / 2, 1 / 4, 3 / 4]).length :=
  median_filter_keeps_at_least_half [1 / 2, 1 / 4, 3 / 4] (by decide)

/-- Indices of the rows carrying class label c, in row order. -/
def members (y : List ℤ) (c : ℤ) : List ℕ :=
  (List.range y.length).filter (fun i => y.getD i 0 == c)

/-- Modelled from the spec: the held-out count of a class of n members under
the stratified 70/30 split — 30% of the class, rounded up, so every class
with at least 2 members appears on both sides of the partition. -/
def testQuota (n : ℕ) : ℕ := (3 * n + 9) / 10

/-- Modelled from the spec: the held-out (test) row indices of the stratified
split — per class, the first testQuota members. -/
def test_indices (y : List ℤ) : List ℕ :=
  y.dedup.flatMap (fun c => (members y c).take (testQuota (y.count c)))

/-- Modelled from the spec: the training row indices of the stratified split
— per class, the members beyond the held-out quota. -/
def train_indices (y : List ℤ) : List ℕ :=
  y.dedup.flatMap (fun c => (members y c).drop (testQuota (y.count c)))

/-- Modelled from the spec: the Trainer/Evaluator's stratified 70/30
train/test split (`train_test_split(..., test_size=0.3, stratify=y)` in both
notebooks, a library routine whose code is not part of the repository): it
fails with StratificationError when some class has fewer than 2 members and
otherwise deterministically holds out 30% of every class, rounded up. -/
def stratified_split (y : List ℤ) : Except MLError (List ℕ × List ℕ) :=
  if y.dedup.any (fun c => y.count c < 2) then .error .stratificationError
  else .ok (train_indices y, test_indices y)

theorem mem_members (y : List ℤ) (c : ℤ) (i : ℕ) :
    i ∈ members y c ↔ i < y.length ∧ y.getD i 0 = c := by
  simp [members, List.mem_filter, List.mem_range]

theorem members_nodup (y : List ℤ) (c : ℤ) : (members y c).Nodup :=
  (List.filter_sublist _).nodup (List.nodup_range _)

theorem length_members (y : List ℤ) (c : ℤ) : (members y c).length = y.count c := by
  unfold members
  rw [← List.countP_eq_length_filter, countP_range_getD (fun x => x == c) 0 y]
  exact (List.count_eq_countP c y).symm

theorem testQuota_le (n : ℕ) : testQuota n ≤ n := by
  unfold testQuota
  omega

theorem countP_flatMap {α β : Type} (l : List α) (f : α → List β) (p : β → Bool) :
    (l.flatMap f).countP p = (l.map (fun a => (f a).countP p)).sum := by
  induction l with
  | nil => rfl
  | cons a tl ih =>
      rw [List.flatMap_cons, List.countP_append, List.map_cons, List.sum_cons, ih]

theorem sum_map_single {α : Type} (f : α → ℕ) :
    ∀ l : List α, l.Nodup → ∀ c ∈ l, (∀ c' ∈ l, c' ≠ c → f c' = 0) →
      (l.map f).sum = f c := by
  intro l
  induction l with
  | nil =>
      intro _ c hc
      cases hc
  | cons a tl ih =>
      intro hnd c hc h0
      rw [List.map_cons, List.sum_cons]
      rcases List.mem_cons.mp hc with rfl | hc'
      · have hz : (tl.map f).sum = 0 :=
          List.sum_eq_zero (by
            intro x hx
            obtain ⟨c', hmem, rfl⟩ := List.mem_map.mp hx
            exact h0 c' (List.mem_cons_of_mem _ hmem)
              (fun he => by subst he; exact (List.nodup_cons.mp hnd).1 hmem))
        omega
      · have ha : f a = 0 :=
          h0 a (List.mem_cons_self _ _)
            (fun he => by subst he; exact (List.nodup_cons.mp hnd).1 hc')
        rw [ha, ih (List.nodup_cons.mp hnd).2 c hc'
          (fun c' h' hne => h0 c' (List.mem_cons_of_mem _ h') hne)]
        omega

theorem test_count_class (y : List ℤ) (c : ℤ) (hc : c ∈ y) :
    (test_indices y).countP (fun i => y.getD i 0 == c) = testQuota (y.count c) := by
  unfold test_indices
  rw [countP_flatMap,
    sum_map_single _ y.dedup (List.nodup_dedup y) c (List.mem_dedup.mpr hc) ?side]
  case side =>
    intro c' _ hne
    refine List.countP_eq_zero.mpr fun x hx => ?_
    have hm : x ∈ members y c' := List.mem_of_mem_take hx
    have := ((mem_members y c' x).mp hm).2
    simp only [beq_iff_eq, this]
    exact fun he => hne he
  have hall : ∀ x ∈ (members y c).take (testQuota (y.count c)),
      (fun i => y.getD i 0 == c) x = true := by
    intro x hx
    have hm : x ∈ members y c := List.mem_of_mem_take hx
    simp only [beq_iff_eq]
    exact ((mem_members y c x).mp hm).2
  rw [List.countP_eq_length.mpr hall, List.length_take, length_members]
  exact min_eq_left (testQuota_le _)

theorem train_count_class (y : List ℤ) (c : ℤ) (hc : c ∈ y) :
    (train_indices y).countP (fun i => y.getD i 0 == c)
      = y.count c - testQuota (y.count c) := by
  unfold train_indices
  rw [countP_flatMap,
    sum_map_single _ y.dedup (List.nodup_dedup y) c (List.mem_dedup.mpr hc) ?side]
  case side =>
    intro c' _ hne
    refine List.countP_eq_zero.mpr fun x hx => ?_
    have hm : x ∈ members y c' := (List.drop_sublist _ _).subset hx
    have := ((mem_members y c' x).mp hm).2
    simp only [beq_iff_eq, this]
    exact fun he => hne he
  have hall : ∀ x ∈ (members y c).drop (testQuota (y.count c)),
      (fun i => y.getD i 0 == c) x = true := by
    intro x hx
    have hm : x ∈ members y c := (List.drop_sublist _ _).subset hx
    simp only [beq_iff_eq]
    exact ((mem_members y c x).mp hm).2
  rw [List.countP_eq_length.mpr hall, List.length_drop, length_members]

theorem train_test_disjoint (y : List ℤ) (i : ℕ) (hi : i ∈ train_indices y) :
    i ∉ test_indices y := by
  intro hit
  obtain ⟨c₁, _, hi₁⟩ := List.mem_flatMap.mp hi
  obtain ⟨c₂, _, hi₂⟩ := List.mem_flatMap.mp hit
  have hm₁ : i ∈ members y c₁ := (List.drop_sublist _ _).subset hi₁
  have hm₂ : i ∈ members y c₂ := List.mem_of_mem_take hi₂
  have hcc : c₁ = c₂ := by
    have h₁ := ((mem_members y c₁ i).mp hm₁).2
    have h₂ := ((mem_members y c₂ i).mp hm₂).2
    rw [← h₁, h₂]
  subst hcc
  have hnd : ((members y c₁).take (testQuota (y.count c₁))
      ++ (members y c₁).drop (testQuota (y.count c₁))).Nodup := by
    rw [List.take_append_drop]
    exact members_nodup y c₁
  exact List.disjoint_of_nodup_append hnd hi₂ hi₁

theorem split_exhaustive (y : List ℤ) (i : ℕ) :
    (i ∈ train_indices y ∨ i ∈ test_indices y) ↔ i < y.length := by
  constructor
  · rintro (hi | hi)
    · obtain ⟨c, _, hm⟩ := List.mem_flatMap.mp hi
      exact ((mem_members y c i).mp ((List.drop_sublist _ _).subset hm)).1
    · obtain ⟨c, _, hm⟩ := List.mem_flatMap.mp hi
      exact ((mem_members y c i).mp (List.mem_of_mem_take hm)).1
  · intro hlt
    have hm : i ∈ members y (y.getD i 0) := (mem_members _ _ _).mpr ⟨hlt, rfl⟩
    have hcy : y.getD i 0 ∈ y := by
      rw [List.getD_eq_getElem y 0 hlt]
      exact List.getElem_mem hlt
    have hcd : y.getD i 0 ∈ y.dedup := List.mem_dedup.mpr hcy
    rw [← List.take_append_drop (testQuota (y.count (y.getD i 0)))
      (members y (y.getD i 0))] at hm
    rcases List.mem_append.mp hm with htake | hdrop
    · exact Or.inr (List.mem_flatMap.mpr ⟨y.getD i 0, hcd, htake⟩)
    · exact Or.inl (List.mem_flatMap.mpr ⟨y.getD i 0, hcd, hdrop⟩)

/-- C4: for every label vector that admits stratification (every class with
at least 2 members), the split returns a partition: the train and test index
lists are disjoint and together exhaust exactly the input row indices, each
class's held-out count is 30% of the class size rounded up — so each class's
proportion is preserved in both partitions to within one sample, the stated
tolerance — and the training side receives exactly the remaining members of
each class. -/
theorem stratified_split_partition (y : List ℤ) (h : ∀ c ∈ y, 2 ≤ y.count c) :
    stratified_split y = .ok (train_indices y, test_indices y) ∧
    (∀ i, i ∈ train_indices y → i ∉ test_indices y) ∧
    (∀ i, (i ∈ train_indices y ∨ i ∈ test_indices y) ↔ i < y.length) ∧
    (∀ c, c ∈ y →
      (test_indices y).countP (fun i => y.getD i 0 == c) = testQuota (y.count c) ∧
      (train_indices y).countP (fun i => y.getD i 0 == c)
        = y.count c - testQuota (y.count c) ∧
      3 * y.count c ≤ 10 * testQuota (y.count c) ∧
      10 * testQuota (y.count c) < 3 * y.count c + 10) := by
  refine ⟨?_, train_test_disjoint y, split_exhaustive y, ?_⟩
  · have hfalse : y.dedup.any (fun c => y.count c < 2) = false := by
      rw [List.any_eq_false]
      intro c hcd
      simp only [decide_eq_true_eq, not_lt]
      exact h c (List.mem_dedup.mp hcd)
    unfold stratified_split
    rw [hfalse]
    rfl
  · intro c hc
    refine ⟨test_count_class y c hc, train_count_class y c hc, ?_, ?_⟩ <;>
      · unfold testQuota
        omega

/-- Witness for C4 at the concrete label vector with seven 0-labels and three
1-labels: the split succeeds, is a disjoint exhaustive partition, and holds
out ceil(0.3 · 7) = 3 samples of class 0 and ceil(0.3 · 3) = 1 of class 1. -/
theorem stratified_split_partition_witness :
    stratified_split [0, 0, 0, 0, 0, 0, 0, 1, 1, 1]
        = .ok (train_indices [0, 0, 0, 0, 0, 0, 0, 1, 1, 1],
            test_indices [0, 0, 0, 0, 0, 0, 0, 1, 1, 1]) ∧
    (test_indices [0, 0, 0, 0, 0, 0, 0, 1, 1, 1]).countP
        (fun i => ([0, 0, 0, 0, 0, 0, 0, 1, 1, 1] : List ℤ).getD i 0 == 0) = 3 ∧
    (test_indices [0, 0, 0, 0, 0, 0, 0, 1, 1, 1]).countP
        (fun i => ([0, 0, 0, 0, 0, 0, 0, 1, 1, 1] : List ℤ).getD i 0 == 1) = 1 :=
  ⟨(stratified_split_partition [0, 0, 0, 0, 0, 0, 0, 1, 1, 1] (by decide)).1,
    ((stratified_split_partition [0, 0, 0, 0, 0, 0, 0, 1, 1, 1] (by decide)).2.2.2
      0 (by decide)).1,
    ((stratified_split_partition [0, 0, 0, 0, 0, 0, 0, 1, 1, 1] (by decide)).2.2.2
      1 (by decide)).1⟩

/-- C7: for every label vector in which some class has fewer than 2 members,
the stratified 70/30 split fails with a StratificationError instead of
returning a partition. -/
theorem stratified_split_small_class_error (y : List ℤ) (c : ℤ)
    (hc : c ∈ y) (hcount : y.count c < 2) :
    stratified_split y = .error .stratificationError := by
  unfold stratified_split
  rw [if_pos]
  exact List.any_eq_true.mpr ⟨c, List.mem_dedup.mpr hc, by simpa using hcount⟩

/-- Witness for C7 at the concrete label vector [0, 0, 1], whose class 1 has
exactly one member. -/
theorem stratified_split_small_class_error_witness :
    stratified_split [0, 0, 1] = .error .stratificationError :=
  stratified_split_small_class_error [0, 0, 1] 1 (by decide) (by decide)

/-- Number of columns of a matrix of optional (possibly missing) cells. -/
def numColsOpt (X : List (List (Option ℚ))) : ℕ := (X.headD []).length

/-- Column j is entirely missing: every row reads none at position j. -/
def allMissing (X : List (List (Option ℚ))) (j : ℕ) : Bool :=
  X.all (fun r => (r.getD j none).isNone)

/-- Squared distance between two rows over the coordinates where both carry a
value — the similarity the neighbor search of the Cleaner ranks rows by. -/
def rowDist (r₁ r₂ : List (Option ℚ)) : ℚ :=
  ((r₁.zip r₂).filterMap (fun p =>
    match p.1, p.2 with
    | some a, some b => some ((a - b) ^ 2)
    | _, _ => none)).sum

/-- Modelled from the spec: the value imputed into a missing cell at column j
of row r — the mean of column j over the k rows nearest to r among the rows
that do have a value at j. -/
def knnFill (k : ℕ) (X : List (List (Option ℚ))) (r : List (Option ℚ)) (j : ℕ) : ℚ :=
  let cands := X.filter (fun r₂ => (r₂.getD j none).isSome)
  let nearest := (cands.insertionSort (fun a b => rowDist r a ≤ rowDist r b)).take k
  listMean (nearest.map (fun r₂ => (r₂.getD j none).getD 0))

/-- Modelled from the spec: the Cleaner (`KNNImputer(n_neighbors=5)` of
04.ipynb, a library routine whose code is not part of the repository): it
fails with ImputationError when some column is entirely missing (no neighbor
can supply it), and otherwise returns the matrix with every present cell kept
and every missing cell filled from the k most similar rows that have that
feature. -/
def knn_impute (k : ℕ) (X : List (List (Option ℚ))) : Except MLError (List (List ℚ)) :=
  if (List.range (numColsOpt X)).any (fun j => allMissing X j) then
    .error .imputationError
  else
    .ok (X.map (fun r => r.enum.map (fun p =>
      match p.2 with
      | some v => v
      | none => knnFill k X r p.1)))

/-- C8: the Cleaner fails with an ImputationError when some column of the
input is entirely missing; otherwise it returns a fully-populated matrix
(every cell a total rational, no missing values left, as the output type
records) of identical shape — the same row count and, row by row, the same
column count as its input. -/
theorem knn_impute_shape_and_error (k : ℕ) (X : List (List (Option ℚ))) :
    ((∃ j, j < numColsOpt X ∧ ∀ r ∈ X, r.getD j none = none) →
      knn_impute k X = .error .imputationError) ∧
    ((∀ j, j < numColsOpt X → ∃ r ∈ X, r.getD j none ≠ none) →
      ∃ Y, knn_impute k X = .ok Y ∧ Y.length = X.length ∧
        ∀ i, (Y.getD i []).length = (X.getD i []).length) := by
  constructor
  · rintro ⟨j, hj, hmiss⟩
    have hcond : (List.range (numColsOpt X)).any (fun j => allMissing X j) = true := by
      refine List.any_eq_true.mpr ⟨j, List.mem_range.mpr hj, ?_⟩
      refine List.all_eq_true.mpr fun r hr => ?_
      rw [hmiss r hr]
      rfl
    unfold knn_impute
    rw [hcond]
    rfl
  · intro hsome
    have hcond : (List.range (numColsOpt X)).any (fun j => allMissing X j) = false := by
      rw [List.any_eq_false]
      intro j hj
      have hjlt : j < numColsOpt X := List.mem_range.mp hj
      obtain ⟨r, hr, hne⟩ := hsome j hjlt
      simp only [allMissing, List.all_eq_true, not_forall]
      have hnn : ¬((r.getD j none).isNone = true) := by
        rw [Option.isNone_iff_eq_none]
        exact hne
      exact ⟨r, hr, hnn⟩
    refine ⟨X.map (fun r => r.enum.map (fun p =>
      match p.2 with
      | some v => v
      | none => knnFill k X r p.1)), ?_, List.length_map _ _, ?_⟩
    · unfold knn_impute
      rw [hcond]
      rfl
    · intro i
      rcases Nat.lt_or_ge i X.length with hi | hi
      · have hi' : i < (X.map (fun r => r.enum.map (fun p =>
            match p.2 with
            | some v => v
            | none => knnFill k X r p.1))).length := by
          simpa using hi
        rw [List.getD_eq_getElem _ _ hi', List.getD_eq_getElem _ _ hi, List.getElem_map]
        rw [List.length_map, List.enum_length]
      · rw [List.getD_eq_default _ _ (by simpa using hi), List.getD_eq_default _ _ hi]
        rfl

/-- Witness for C8 at concrete matrices: a 2 × 2 matrix whose second column
is entirely missing is rejected with ImputationError, and a 2 × 2 matrix
with one missing cell per column is imputed into a fully-populated matrix of
the same shape. -/
theorem knn_impute_shape_and_error_witness :
    knn_impute 5 [[some 1, none], [some 2, none]] = .error .imputationError ∧
    (∃ Y, knn_impute 5 [[some 1, none], [none, some 2]] = .ok Y ∧
      Y.length = ([[some 1, none], [none, some 2]] : List (List (Option ℚ))).length ∧
      ∀ i, (Y.getD i []).length
        = (([[some 1, none], [none, some 2]] : List (List (Option ℚ))).getD i []).length) :=
  ⟨(knn_impute_shape_and_error 5 [[some 1, none], [some 2, none]]).1
      ⟨1, by decide, by decide⟩,
    (knn_impute_shape_and_error 5 [[some 1, none], [none, some 2]]).2 (by decide)⟩

